import Mathlib

/-!
Shallow embedding of `HW3/option_models/sabr.py`: SABR stochastic-volatility
Monte Carlo pricers.  Machine floats are modelled as real numbers; the
pseudo-random normal draws are modelled as explicit inputs (`W` for the
matrix of increments driving the volatility path, `Z` for the per-path
terminal draws), so every statement quantifies over all realizations.
The closed-form pricers from the external `pyfeng` library are out of the
repository's scope and are modelled as an uninterpreted function argument
`cf` selected by a `ModelKind` tag.
-/

noncomputable section

/-- Model configuration: mirrors the attributes set in `ModelABC.__init__`
(`sigma`, `vov`, `rho`, `beta`, `intr`) together with the numerical class
parameters `dt` and `n_path` of `ModelABC`. -/
structure Cfg where
  sigma : ℝ
  vov : ℝ
  rho : ℝ
  beta : ℝ
  intr : ℝ
  dt : ℝ
  n_path : ℕ

/-- Mirrors `n_dt = int(np.ceil(texp / self.dt))` in `ModelABC.sigma_path`
(for the positive arguments the code is used with, `int` truncation of the
ceiling is the ceiling itself). -/
def n_dtOf (texp dt : ℝ) : ℕ := (Int.ceil (texp / dt)).toNat

/-- Mirrors `tobs = np.arange(1, n_dt + 1) / n_dt * texp` in
`ModelABC.sigma_path`: the observation-time grid, entry `k` being
`(k+1)/n_dt * texp`. -/
def tobsList (texp dt : ℝ) : List ℝ :=
  (List.range (n_dtOf texp dt)).map
    (fun k => ((k + 1 : ℕ) : ℝ) / ((n_dtOf texp dt : ℕ) : ℝ) * texp)

/-- Mirrors `ModelABC.sigma_path`.  `W i j` stands for entry `(i, j)` of the
`np.random.standard_normal((n_dt, n_path))` draw.  Row `0` is the row of
ones inserted by `np.insert(sigma_t, 0, np.ones(...), axis=0)`; row `k+1`
is `exp(vov * (Z_t[k] - vov/2 * tobs[k]))` where
`Z_t[k][j] = sum_{i <= k} W i j * sqrt(dt)` is the cumulative sum of the
scaled increments and `dt = texp / n_dt`. -/
def sigma_path (c : Cfg) (texp : ℝ) (W : ℕ → ℕ → ℝ) : List (List ℝ) :=
  List.replicate c.n_path (1 : ℝ) ::
    (List.range (n_dtOf texp c.dt)).map (fun k =>
      (List.range c.n_path).map (fun j =>
        Real.exp (c.vov *
          ((Finset.range (k + 1)).sum
              (fun i => W i j * Real.sqrt (texp / ((n_dtOf texp c.dt : ℕ) : ℝ)))
            - c.vov / 2 * (((k + 1 : ℕ) : ℝ) / ((n_dtOf texp c.dt : ℕ) : ℝ) * texp)))))

lemma n_dtOf_pos {texp dt : ℝ} (h1 : 0 < texp) (h2 : 0 < dt) :
    0 < n_dtOf texp dt := by
  have h : 0 < texp / dt := div_pos h1 h2
  have hc : 0 < Int.ceil (texp / dt) := Int.ceil_pos.mpr h
  unfold n_dtOf
  omega

lemma tobsList_getLast {texp dt : ℝ} (h1 : 0 < texp) (h2 : 0 < dt) :
    (tobsList texp dt).getLast? = some texp := by
  obtain ⟨m, hm⟩ : ∃ m, n_dtOf texp dt = m + 1 :=
    ⟨n_dtOf texp dt - 1, (Nat.succ_pred_eq_of_pos (n_dtOf_pos h1 h2)).symm⟩
  unfold tobsList
  simp only [hm, List.range_succ, List.map_append, List.map_cons, List.map_nil,
    List.getLast?_concat]
  have hne : ((m + 1 : ℕ) : ℝ) ≠ 0 := Nat.cast_ne_zero.mpr (Nat.succ_ne_zero m)
  rw [div_self hne, one_mul]

/-- CLAIM C1: for `texp > 0`, `dt > 0`, `n_path > 0`, `sigma_path` returns a
matrix of `n_dt + 1` rows by `n_path` columns with `n_dt = ceil(texp/dt)`,
whose first row is all exactly `1.0`, whose entries are all strictly
positive, and whose time grid ends exactly at `texp`. -/
theorem sigma_path_shape_pos_grid (c : Cfg) (texp : ℝ) (W : ℕ → ℕ → ℝ)
    (h1 : 0 < texp) (h2 : 0 < c.dt) (h3 : 0 < c.n_path) :
    ((n_dtOf texp c.dt : ℕ) : ℤ) = Int.ceil (texp / c.dt)
    ∧ (sigma_path c texp W).length = n_dtOf texp c.dt + 1
    ∧ (∀ r ∈ sigma_path c texp W, r.length = c.n_path)
    ∧ (sigma_path c texp W).head? = some (List.replicate c.n_path (1 : ℝ))
    ∧ (∀ r ∈ sigma_path c texp W, ∀ x ∈ r, 0 < x)
    ∧ (tobsList texp c.dt).getLast? = some texp := by
  refine ⟨?_, ?_, ?_, rfl, ?_, tobsList_getLast h1 h2⟩
  · have hc : 0 < Int.ceil (texp / c.dt) := Int.ceil_pos.mpr (div_pos h1 h2)
    unfold n_dtOf
    omega
  · simp [sigma_path]
  · intro r hr
    rcases List.mem_cons.mp hr with h | h
    · simp [h]
    · obtain ⟨k, _, hk⟩ := List.mem_map.mp h
      simp [← hk]
  · intro r hr x hx
    rcases List.mem_cons.mp hr with h | h
    · subst h
      have := List.eq_of_mem_replicate hx
      simp [this]
    · obtain ⟨k, _, hk⟩ := List.mem_map.mp h
      subst hk
      obtain ⟨j, _, hj⟩ := List.mem_map.mp hx
      subst hj
      exact Real.exp_pos _

/-- Witness for C1 at `texp = 1`, `dt = 1`, `n_path = 1`. -/
theorem sigma_path_shape_pos_grid_witness :
    (0:ℝ) < 1 ∧ (0:ℝ) < (Cfg.mk 1 0 0 1 0 1 1).dt ∧ 0 < (Cfg.mk 1 0 0 1 0 1 1).n_path ∧
      ((tobsList 1 (Cfg.mk 1 0 0 1 0 1 1).dt).getLast? = some 1) :=
  ⟨by norm_num, by norm_num, by norm_num,
    (sigma_path_shape_pos_grid (Cfg.mk 1 0 0 1 0 1 1) 1 (fun _ _ => 0)
      (by norm_num) (by norm_num) (by norm_num)).2.2.2.2.2⟩

/-- CLAIM C10: the assertion `texp == tobs[-1]` in `ModelABC.sigma_path`
never fails for `texp > 0`, `dt > 0`: the last grid point is
`(n_dt / n_dt) * texp`, which equals `texp` exactly. -/
theorem sigma_path_assert_last_tobs (texp dt : ℝ) (h1 : 0 < texp) (h2 : 0 < dt) :
    (tobsList texp dt).getLast? = some ((((n_dtOf texp dt : ℕ) : ℝ) / ((n_dtOf texp dt : ℕ) : ℝ)) * texp)
    ∧ (tobsList texp dt).getLast? = some texp := by
  have h := tobsList_getLast h1 h2
  have hne : ((n_dtOf texp dt : ℕ) : ℝ) ≠ 0 :=
    Nat.cast_ne_zero.mpr (Nat.pos_iff_ne_zero.mp (n_dtOf_pos h1 h2))
  rw [div_self hne, one_mul]
  exact ⟨h, h⟩

/-- Witness for C10 at `texp = 3`, `dt = 2`. -/
theorem sigma_path_assert_last_tobs_witness :
    (0:ℝ) < 3 ∧ (0:ℝ) < 2 ∧ (tobsList 3 2).getLast? = some 3 :=
  ⟨by norm_num, by norm_num,
    (sigma_path_assert_last_tobs 3 2 (by norm_num) (by norm_num)).2⟩

/-- Mirrors `weight = np.ones(n); weight[[0, -1]] = 0.5` in
`ModelABC.intvar_normalized`: the raw trapezoidal weights before
normalization (for `n = 1` both assignments hit the single cell). -/
def preWeight (n : ℕ) : List ℝ :=
  (List.range n).map (fun k => if k = 0 ∨ k = n - 1 then (0.5 : ℝ) else 1)

/-- Mirrors `weight /= weight.sum()` in `ModelABC.intvar_normalized`. -/
def trapWeight (n : ℕ) : List ℝ :=
  (preWeight n).map (fun w => w / (preWeight n).sum)

/-- Elementwise sum of two rows: the column-wise accumulation performed by
`np.sum(..., axis=0)`. -/
def addRows (a b : List ℝ) : List ℝ := List.zipWith (· + ·) a b

/-- Mirrors `ModelABC.intvar_normalized`:
`intvar = np.sum(weight[:, None] * sigma_path ** 2, axis=0)`, i.e. the
column sums of the rows of `sigma_path ** 2` scaled by their trapezoidal
weights — one value per path. -/
def intvar_normalized (sp : List (List ℝ)) : List ℝ :=
  let rows := List.zipWith (fun w r => r.map (fun x => w * x ^ 2)) (trapWeight sp.length) sp
  rows.tail.foldl addRows (rows.headD [])

lemma sum_map_range (f : ℕ → ℝ) (n : ℕ) :
    ((List.range n).map f).sum = ∑ i in Finset.range n, f i := by
  induction n with
  | zero => simp
  | succ n ih => simp [List.range_succ, Finset.sum_range_succ, ih]

lemma sum_map_div (l : List ℝ) (c : ℝ) :
    (l.map (fun w => w / c)).sum = l.sum / c := by
  induction l with
  | nil => simp
  | cons a t ih => simp [ih, add_div]

lemma length_preWeight (n : ℕ) : (preWeight n).length = n := by
  simp [preWeight]

lemma length_trapWeight (n : ℕ) : (trapWeight n).length = n := by
  simp [trapWeight, length_preWeight]

lemma preWeight_sum_pos {n : ℕ} (hn : 1 ≤ n) : 0 < (preWeight n).sum := by
  apply List.sum_pos
  · intro x hx
    obtain ⟨k, _, hk⟩ := List.mem_map.mp hx
    rw [← hk]
    by_cases h : k = 0 ∨ k = n - 1 <;> simp [h] <;> norm_num
  · intro h
    have := congrArg List.length h
    rw [length_preWeight] at this
    simp at this
    omega

lemma trapWeight_sum {n : ℕ} (hn : 1 ≤ n) : (trapWeight n).sum = 1 := by
  unfold trapWeight
  rw [sum_map_div, div_self (ne_of_gt (preWeight_sum_pos hn))]

lemma preWeight_sum_eq {n : ℕ} (hn : 2 ≤ n) : (preWeight n).sum = (n : ℝ) - 1 := by
  obtain ⟨r, rfl⟩ : ∃ r, n = r + 2 := ⟨n - 2, by omega⟩
  unfold preWeight
  rw [sum_map_range, Finset.sum_range_succ]
  have h1 : ∀ k ∈ Finset.range (r + 1),
      (if k = 0 ∨ k = r + 2 - 1 then (0.5 : ℝ) else 1) = if k = 0 then (0.5 : ℝ) else 1 := by
    intro k hk
    have hkr := Finset.mem_range.mp hk
    by_cases h : k = 0
    · simp [h]
    · have hor : ¬ (k = 0 ∨ k = r + 2 - 1) := by omega
      rw [if_neg hor, if_neg h]
  rw [Finset.sum_congr rfl h1]
  have h2 : ∀ s : ℕ, (∑ k in Finset.range (s + 1), (if k = 0 then (0.5 : ℝ) else 1))
      = 0.5 + (s : ℝ) := by
    intro s
    induction s with
    | zero => simp
    | succ s ih =>
      rw [Finset.sum_range_succ, ih, if_neg (Nat.succ_ne_zero s)]
      push_cast
      ring
  rw [h2]
  have h3 : (if r + 1 = 0 ∨ r + 1 = r + 2 - 1 then (0.5 : ℝ) else 1) = 0.5 := by
    have : r + 1 = 0 ∨ r + 1 = r + 2 - 1 := by omega
    rw [if_pos this]
  rw [h3]
  push_cast
  ring

lemma trapWeight_eq {n : ℕ} (hn : 2 ≤ n) :
    trapWeight n = (List.range n).map
      (fun k => (if k = 0 ∨ k = n - 1 then (1 / 2 : ℝ) else 1) / ((n : ℝ) - 1)) := by
  unfold trapWeight
  rw [preWeight_sum_eq hn]
  unfold preWeight
  rw [List.map_map]
  apply List.map_congr_left
  intro k _
  by_cases h : k = 0 ∨ k = n - 1 <;> simp [h] <;> norm_num

lemma zipWith_replicate_right {α β γ : Type} (f : α → β → γ) (b : β) :
    ∀ (l : List α), List.zipWith f l (List.replicate l.length b) = l.map (fun a => f a b) := by
  intro l
  induction l with
  | nil => simp
  | cons x t ih => simp [List.replicate_succ, ih]

lemma addRows_replicate (p : ℕ) (a b : ℝ) :
    addRows (List.replicate p a) (List.replicate p b) = List.replicate p (a + b) := by
  unfold addRows
  induction p with
  | zero => rfl
  | succ p ih => simp [List.replicate_succ, ih]

lemma foldl_addRows_replicate (p : ℕ) : ∀ (ws : List ℝ) (w0 : ℝ),
    (ws.map (fun w => List.replicate p w)).foldl addRows (List.replicate p w0)
      = List.replicate p (w0 + ws.sum) := by
  intro ws
  induction ws with
  | nil => intro w0; simp
  | cons w t ih =>
    intro w0
    simp only [List.map_cons, List.foldl_cons, addRows_replicate, ih, List.sum_cons]
    rw [add_assoc]

lemma length_addRows (a b : List ℝ) : (addRows a b).length = min a.length b.length := by
  simp [addRows]

lemma foldl_addRows_length (p : ℕ) : ∀ (t : List (List ℝ)) (h : List ℝ),
    h.length = p → (∀ r ∈ t, r.length = p) → (t.foldl addRows h).length = p := by
  intro t
  induction t with
  | nil => intro h hh _; simpa using hh
  | cons r rs ih =>
    intro h hh hall
    have hr : r.length = p := hall r (by simp)
    have hlen : (addRows h r).length = p := by rw [length_addRows, hh, hr, min_self]
    exact ih _ hlen (fun x hx => hall x (by simp [hx]))

lemma mem_zipWith_rows_len (p : ℕ) : ∀ (ws : List ℝ) (sp : List (List ℝ)),
    (∀ r ∈ sp, r.length = p) →
    ∀ q ∈ List.zipWith (fun w r => r.map (fun x => w * x ^ 2)) ws sp, q.length = p := by
  intro ws
  induction ws with
  | nil => intro sp _ q hq; simp at hq
  | cons w wt ih =>
    intro sp hall q hq
    cases sp with
    | nil => simp at hq
    | cons r rt =>
      rcases List.mem_cons.mp hq with h | h
      · subst h
        simpa using hall r (by simp)
      · exact ih rt (fun x hx => hall x (by simp [hx])) q h

/-- CLAIM C5: `intvar_normalized` applies trapezoidal weights (1/2 at both
endpoints, 1 at interior points, normalized to sum to 1) to the squared
volatility multipliers, yielding one value per path; on a constant path in
which every multiplier is 1 it returns exactly 1 for every path. -/
theorem intvar_normalized_weights_and_const_one (m p : ℕ) (hm : 1 ≤ m) :
    (trapWeight m).sum = 1
    ∧ (2 ≤ m → trapWeight m = (List.range m).map
        (fun k => (if k = 0 ∨ k = m - 1 then (1 / 2 : ℝ) else 1) / ((m : ℝ) - 1)))
    ∧ (∀ sp : List (List ℝ), sp.length = m → (∀ r ∈ sp, r.length = p) →
        (intvar_normalized sp).length = p)
    ∧ intvar_normalized (List.replicate m (List.replicate p (1 : ℝ)))
        = List.replicate p 1 := by
  refine ⟨trapWeight_sum hm, fun h2 => trapWeight_eq h2, ?_, ?_⟩
  · intro sp hlen hall
    unfold intvar_normalized
    have hrows := mem_zipWith_rows_len p (trapWeight sp.length) sp hall
    rcases hzw : List.zipWith (fun w r => r.map (fun x => w * x ^ 2)) (trapWeight sp.length) sp
      with _ | ⟨q, qt⟩
    · exfalso
      have := congrArg List.length hzw
      rw [List.length_zipWith, length_trapWeight, hlen] at this
      simp at this
      omega
    · simp only [hzw, List.tail_cons, List.headD_cons]
      refine foldl_addRows_length p qt q ?_ ?_
      · exact hrows q (by rw [hzw]; simp)
      · intro x hx
        exact hrows x (by rw [hzw]; simp [hx])
  · unfold intvar_normalized
    have hlen : (List.replicate m (List.replicate p (1:ℝ))).length = m := by simp
    rw [hlen]
    have hz : List.zipWith (fun w r => r.map (fun x => w * x ^ 2)) (trapWeight m)
        (List.replicate m (List.replicate p (1:ℝ)))
        = (trapWeight m).map (fun w => List.replicate p w) := by
      have := zipWith_replicate_right (fun (w : ℝ) (r : List ℝ) => r.map (fun x => w * x ^ 2))
        (List.replicate p (1:ℝ)) (trapWeight m)
      rw [length_trapWeight] at this
      rw [this]
      apply List.map_congr_left
      intro w _
      rw [List.map_replicate]
      norm_num
    rw [hz]
    obtain ⟨w0, ws, hcons⟩ : ∃ w0 ws, trapWeight m = w0 :: ws := by
      rcases hw : trapWeight m with _ | ⟨w0, ws⟩
      · exfalso
        have := congrArg List.length hw
        rw [length_trapWeight] at this
        simp at this
        omega
      · exact ⟨w0, ws, rfl⟩
    rw [hcons]
    simp only [List.map_cons, List.tail_cons, List.headD_cons]
    rw [foldl_addRows_replicate]
    have : w0 + ws.sum = (trapWeight m).sum := by rw [hcons]; simp
    rw [this, trapWeight_sum hm]

/-- Witness for C5 at `m = 3` rows, `p = 2` paths. -/
theorem intvar_normalized_weights_and_const_one_witness :
    1 ≤ 3 ∧ intvar_normalized (List.replicate 3 (List.replicate 2 (1:ℝ)))
      = List.replicate 2 1 :=
  ⟨by norm_num, (intvar_normalized_weights_and_const_one 3 2 (by norm_num)).2.2.2⟩

/-- The two families of closed-form base pricers the external `pyfeng`
library provides: `pf.Norm` (normal/Bachelier) and `pf.Bsm`
(log-normal/Black-Scholes). -/
inductive ModelKind : Type where
  | norm : ModelKind
  | bsm : ModelKind
deriving DecidableEq

/-- A constructed base-model object: the family tag together with the
`(sigma, intr)` constructor arguments. -/
inductive BaseModel : Type where
  | norm (sigma intr : ℝ) : BaseModel
  | bsm (sigma intr : ℝ) : BaseModel
deriving DecidableEq

/-- Mirrors `ModelABC.base_model`: `beta == 0` returns
`pf.Norm(sigma, intr=self.intr)`, `beta == 1` returns
`pf.Bsm(sigma, intr=self.intr)`, anything else raises
`ValueError('0<beta<1 not supported')`.  The raise is modelled as an
`Except.error`, surfaced immediately (no retry exists: the function is
pure). -/
def base_model (beta sigma intr : ℝ) : Except String BaseModel :=
  if beta = 0 then Except.ok (BaseModel.norm sigma intr)
  else if beta = 1 then Except.ok (BaseModel.bsm sigma intr)
  else Except.error "0<beta<1 not supported"

/-- The family-selection part of `ModelABC.base_model`, used by the
conditional simulators (which construct one model object carrying a whole
vector of per-path volatilities; the embedding applies the per-path
volatility at each path instead, which is what the numpy broadcast
computes). -/
def base_modelKind (beta : ℝ) : Except String ModelKind :=
  if beta = 0 then Except.ok ModelKind.norm
  else if beta = 1 then Except.ok ModelKind.bsm
  else Except.error "0<beta<1 not supported"

/-- `np.mean` of a vector of `n` entries given by `f` on indices `0..n-1`. -/
def meanRange (n : ℕ) (f : ℕ → ℝ) : ℝ := (∑ j in Finset.range n, f j) / (n : ℝ)

/-- `sigma_t = vol_path[-1, :]`: the terminal volatility multiplier of
path `j`. -/
def sigmaT (c : Cfg) (texp : ℝ) (W : ℕ → ℕ → ℝ) (j : ℕ) : ℝ :=
  ((sigma_path c texp W).getLastD []).getD j 0

/-- `I_t = self.intvar_normalized(vol_path)`: the normalized integrated
variance of path `j`. -/
def It (c : Cfg) (texp : ℝ) (W : ℕ → ℕ → ℝ) (j : ℕ) : ℝ :=
  (intvar_normalized (sigma_path c texp W)).getD j 0

/-- `vol = self.sigma * np.sqrt((1 - self.rho ** 2) * I_t)`: the
equivalent (residual) volatility of path `j`, shared by all four
simulators. -/
def volEquiv (c : Cfg) (texp : ℝ) (W : ℕ → ℕ → ℝ) (j : ℕ) : ℝ :=
  c.sigma * Real.sqrt ((1 - c.rho ^ 2) * It c texp W j)

/-- Division instrumented for the divide-by-zero analysis: `none` exactly
when the denominator is zero, otherwise the real quotient. -/
def divChecked (a b : ℝ) : Option ℝ :=
  if b = 0 then none else some (a / b)

namespace ModelBsmMC

/-- Terminal spot of path `j` in `ModelBsmMC.price`, with the scalar
`1 / self.vov` (computed once in the source) passed in as `inv_vov`:
`s_t = inv_vov * (sigma_t - 1.0) - 0.5 * sigma * rho * texp * I_t`,
then `s_t = np.exp(rho * sigma * s_t)`, and
`S_t = s_t * spot * np.exp(volt * (Z - volt / 2))` with
`volt = vol * np.sqrt(texp)`. -/
def STWith (c : Cfg) (W : ℕ → ℕ → ℝ) (Z : ℕ → ℝ) (spot texp inv_vov : ℝ) (j : ℕ) : ℝ :=
  let st0 := inv_vov * (sigmaT c texp W j - 1.0) - 0.5 * c.sigma * c.rho * texp * It c texp W j
  let st := Real.exp (c.rho * c.sigma * st0)
  let volt := volEquiv c texp W j * Real.sqrt texp
  st * spot * Real.exp (volt * (Z j - volt / 2))

/-- Price at one strike:
`p = df * np.mean(np.fmax(cp * (S_t - strike), 0.0), axis=1)` with
`df = np.exp(-self.intr * texp)`. -/
def priceKWith (c : Cfg) (W : ℕ → ℕ → ℝ) (Z : ℕ → ℝ) (spot texp cp inv_vov K : ℝ) : ℝ :=
  Real.exp (-c.intr * texp) *
    meanRange c.n_path (fun j => max (cp * (STWith c W Z spot texp inv_vov j - K)) 0)

/-- `ModelBsmMC.price` at one strike. -/
def priceK (c : Cfg) (W : ℕ → ℕ → ℝ) (Z : ℕ → ℝ) (spot texp cp K : ℝ) : ℝ :=
  priceKWith c W Z spot texp cp (1 / c.vov) K

/-- `ModelBsmMC.price`: the vector of prices for all requested strikes,
each computed from the same simulated path set. -/
def price (c : Cfg) (W : ℕ → ℕ → ℝ) (Z : ℕ → ℝ) (strikes : List ℝ)
    (spot texp cp : ℝ) : List ℝ :=
  strikes.map (priceK c W Z spot texp cp)

/-- The same computation with the division `1 / self.vov` in the
correlation-shift term instrumented: `none` exactly when that division
has a zero denominator. -/
def price_divCheck (c : Cfg) (W : ℕ → ℕ → ℝ) (Z : ℕ → ℝ) (strikes : List ℝ)
    (spot texp cp : ℝ) : Option (List ℝ) :=
  (divChecked 1 c.vov).map (fun iv => strikes.map (priceKWith c W Z spot texp cp iv))

end ModelBsmMC

namespace ModelNormMC

/-- Terminal spot of path `j` in `ModelNormMC.price`, with the scalar
`self.rho / self.vov` passed in as `rv`:
`s_t = rv * (sigma_t - 1) * self.sigma`;
`S_t = s_t + spot / df + volt * Z` with `volt = vol * np.sqrt(texp)` and
`df = np.exp(-self.intr * texp)`.  (The first `Z` drawn in the source is
overwritten unused; only the second draw enters the computation.) -/
def STWith (c : Cfg) (W : ℕ → ℕ → ℝ) (Z : ℕ → ℝ) (spot texp rv : ℝ) (j : ℕ) : ℝ :=
  let st := rv * (sigmaT c texp W j - 1) * c.sigma
  let df := Real.exp (-c.intr * texp)
  let volt := volEquiv c texp W j * Real.sqrt texp
  st + spot / df + volt * Z j

/-- Price at one strike: `p = df * np.mean(np.fmax(cp * (S_t - strike), 0.0), axis=1)`. -/
def priceKWith (c : Cfg) (W : ℕ → ℕ → ℝ) (Z : ℕ → ℝ) (spot texp cp rv K : ℝ) : ℝ :=
  Real.exp (-c.intr * texp) *
    meanRange c.n_path (fun j => max (cp * (STWith c W Z spot texp rv j - K)) 0)

/-- `ModelNormMC.price` at one strike. -/
def priceK (c : Cfg) (W : ℕ → ℕ → ℝ) (Z : ℕ → ℝ) (spot texp cp K : ℝ) : ℝ :=
  priceKWith c W Z spot texp cp (c.rho / c.vov) K

/-- `ModelNormMC.price`. -/
def price (c : Cfg) (W : ℕ → ℕ → ℝ) (Z : ℕ → ℝ) (strikes : List ℝ)
    (spot texp cp : ℝ) : List ℝ :=
  strikes.map (priceK c W Z spot texp cp)

/-- The same computation with the division `self.rho / self.vov` in the
correlation-shift term instrumented: `none` exactly when it divides by
zero. -/
def price_divCheck (c : Cfg) (W : ℕ → ℕ → ℝ) (Z : ℕ → ℝ) (strikes : List ℝ)
    (spot texp cp : ℝ) : Option (List ℝ) :=
  (divChecked c.rho c.vov).map (fun rv => strikes.map (priceKWith c W Z spot texp cp rv))

end ModelNormMC

namespace ModelBsmCondMC

/-- Equivalent spot of path `j` in `ModelBsmCondMC.price`, with the scalar
`1 / self.vov` passed in as `inv_vov`:
`s_t = inv_vov * (sigma_t - 1.0) - 0.5 * sigma * rho * texp * I_t`;
`s_t = np.exp(rho * sigma * s_t)`; `c_f_spot = s_t * spot / df`;
`spot_equiv = c_f_spot * np.exp(volt * (Z - volt / 2))`. -/
def spotEquivWith (c : Cfg) (W : ℕ → ℕ → ℝ) (Z : ℕ → ℝ) (spot texp inv_vov : ℝ) (j : ℕ) : ℝ :=
  let st0 := inv_vov * (sigmaT c texp W j - 1.0) - 0.5 * c.sigma * c.rho * texp * It c texp W j
  let st := Real.exp (c.rho * c.sigma * st0)
  let df := Real.exp (-c.intr * texp)
  let c_f_spot := st * spot / df
  let volt := volEquiv c texp W j * Real.sqrt texp
  c_f_spot * Real.exp (volt * (Z j - volt / 2))

/-- `ModelBsmCondMC.price` with the external closed-form pricer passed as
`cf` (arguments: family tag, constructor volatility, constructor rate,
strike, spot, texp, cp) and `1 / self.vov` as `inv_vov`:
`m = self.base_model(vol)` then
`p = np.mean(m.price(strike[:, None], spot_equiv, texp, cp), axis=1)`. -/
def priceWith (cf : ModelKind → ℝ → ℝ → ℝ → ℝ → ℝ → ℝ → ℝ) (c : Cfg)
    (W : ℕ → ℕ → ℝ) (Z : ℕ → ℝ) (strikes : List ℝ) (spot texp cp inv_vov : ℝ) :
    Except String (List ℝ) :=
  (base_modelKind c.beta).map (fun kind =>
    strikes.map (fun K =>
      meanRange c.n_path (fun j =>
        cf kind (volEquiv c texp W j) c.intr K (spotEquivWith c W Z spot texp inv_vov j) texp cp)))

/-- `ModelBsmCondMC.price`. -/
def price (cf : ModelKind → ℝ → ℝ → ℝ → ℝ → ℝ → ℝ → ℝ) (c : Cfg)
    (W : ℕ → ℕ → ℝ) (Z : ℕ → ℝ) (strikes : List ℝ) (spot texp cp : ℝ) :
    Except String (List ℝ) :=
  priceWith cf c W Z strikes spot texp cp (1 / c.vov)

/-- The same computation with the division `1 / self.vov` in the
correlation-shift term instrumented. -/
def price_divCheck (cf : ModelKind → ℝ → ℝ → ℝ → ℝ → ℝ → ℝ → ℝ) (c : Cfg)
    (W : ℕ → ℕ → ℝ) (Z : ℕ → ℝ) (strikes : List ℝ) (spot texp cp : ℝ) :
    Option (Except String (List ℝ)) :=
  (divChecked 1 c.vov).map (priceWith cf c W Z strikes spot texp cp)

end ModelBsmCondMC

namespace ModelNormCondMC

/-- Terminal spot of path `j` in `ModelNormCondMC.price`:
`S_T = spot + sigma_t * np.sqrt(I_t) + sigma_t * np.sqrt(texp) * Z`. -/
def ST (c : Cfg) (W : ℕ → ℕ → ℝ) (Z : ℕ → ℝ) (spot texp : ℝ) (j : ℕ) : ℝ :=
  spot + sigmaT c texp W j * Real.sqrt (It c texp W j)
    + sigmaT c texp W j * Real.sqrt texp * Z j

/-- `ModelNormCondMC.price`: `m = self.base_model(vol)` then
`p = np.mean(m.price(strike[:, None], S_T, texp, cp), axis=1)`. -/
def price (cf : ModelKind → ℝ → ℝ → ℝ → ℝ → ℝ → ℝ → ℝ) (c : Cfg)
    (W : ℕ → ℕ → ℝ) (Z : ℕ → ℝ) (strikes : List ℝ) (spot texp cp : ℝ) :
    Except String (List ℝ) :=
  (base_modelKind c.beta).map (fun kind =>
    strikes.map (fun K =>
      meanRange c.n_path (fun j =>
        cf kind (volEquiv c texp W j) c.intr K (ST c W Z spot texp j) texp cp)))

/-- The divide-by-zero instrumentation of `ModelNormCondMC.price`: the
source (lines 204-217) contains no division by `self.vov` at all — there
is no instrumentation site, so the checked semantics always succeeds. -/
def price_divCheck (cf : ModelKind → ℝ → ℝ → ℝ → ℝ → ℝ → ℝ → ℝ) (c : Cfg)
    (W : ℕ → ℕ → ℝ) (Z : ℕ → ℝ) (strikes : List ℝ) (spot texp cp : ℝ) :
    Option (Except String (List ℝ)) :=
  some (price cf c W Z strikes spot texp cp)

end ModelNormCondMC

/-- CLAIM C6: `base_model` returns the normal pricer constructed with
`(vol, intr)` for `beta = 0`, the log-normal (Black-Scholes) pricer
constructed with `(vol, intr)` for `beta = 1`, and raises the
unsupported-parameter error for every other `beta`, immediately and
without retry (the function is pure: the error is its immediate result). -/
theorem base_model_selection (beta vol intr : ℝ) (h0 : beta ≠ 0) (h1 : beta ≠ 1) :
    base_model 0 vol intr = Except.ok (BaseModel.norm vol intr)
    ∧ base_model 1 vol intr = Except.ok (BaseModel.bsm vol intr)
    ∧ base_model beta vol intr = Except.error "0<beta<1 not supported" := by
  refine ⟨?_, ?_, ?_⟩
  · simp [base_model]
  · norm_num [base_model]
  · simp [base_model, h0, h1]

/-- Witness for C6 at `beta = 1/2`. -/
theorem base_model_selection_witness :
    ((1/2 : ℝ) ≠ 0) ∧ ((1/2 : ℝ) ≠ 1)
    ∧ base_model (1/2) 1 0 = Except.error "0<beta<1 not supported" :=
  ⟨by norm_num, by norm_num,
    (base_model_selection (1/2) 1 0 (by norm_num) (by norm_num)).2.2⟩

/-- Claim-side formula for C2, written from the spec's words: terminal spot
is `spot` times the correlation component `exp(rho*sigma*s)` with
`s = (1/vov)*(sigma_T - 1) - 0.5*sigma*rho*texp*I_T`, times the
martingale-corrected log-normal step `exp(v*Z - v^2/2)` with residual
volatility `v = sigma*sqrt((1-rho^2)*I_T)*sqrt(texp)`. -/
def bsmDirectSpecST (c : Cfg) (W : ℕ → ℕ → ℝ) (Z : ℕ → ℝ) (spot texp : ℝ) (j : ℕ) : ℝ :=
  let s := (1 / c.vov) * (sigmaT c texp W j - 1) - 0.5 * c.sigma * c.rho * texp * It c texp W j
  let v := c.sigma * Real.sqrt ((1 - c.rho ^ 2) * It c texp W j) * Real.sqrt texp
  spot * Real.exp (c.rho * c.sigma * s) * Real.exp (v * Z j - v ^ 2 / 2)

lemma bsmMC_STWith_eq_spec (c : Cfg) (W : ℕ → ℕ → ℝ) (Z : ℕ → ℝ) (spot texp : ℝ) (j : ℕ) :
    ModelBsmMC.STWith c W Z spot texp (1 / c.vov) j = bsmDirectSpecST c W Z spot texp j := by
  simp only [ModelBsmMC.STWith, bsmDirectSpecST, volEquiv]
  ring_nf

/-- CLAIM C2: for `vov > 0` and every realization of the draws,
`ModelBsmMC.price` equals, for every requested strike simultaneously,
`exp(-intr*texp)` times the average over paths of
`max(cp*(S_T - strike), 0)` where `S_T` is built by the correlation
decomposition and martingale-corrected log-normal step of the spec. -/
theorem bsmMC_price_formula (c : Cfg) (W : ℕ → ℕ → ℝ) (Z : ℕ → ℝ)
    (strikes : List ℝ) (spot texp cp : ℝ) (hvov : 0 < c.vov) :
    ModelBsmMC.price c W Z strikes spot texp cp
      = strikes.map (fun K => Real.exp (-c.intr * texp) *
          meanRange c.n_path (fun j => max (cp * (bsmDirectSpecST c W Z spot texp j - K)) 0)) := by
  unfold ModelBsmMC.price
  apply List.map_congr_left
  intro K _
  unfold ModelBsmMC.priceK ModelBsmMC.priceKWith
  congr 1
  unfold meanRange
  congr 1
  apply Finset.sum_congr rfl
  intro j _
  simp only [bsmMC_STWith_eq_spec]

/-- Witness for C2 at a concrete configuration with `vov = 1 > 0`. -/
theorem bsmMC_price_formula_witness :
    (0:ℝ) < (Cfg.mk 1 1 0 1 0 1 1).vov ∧
      ModelBsmMC.price (Cfg.mk 1 1 0 1 0 1 1) (fun _ _ => 0) (fun _ => 0) [1] 1 1 1
        = [1].map (fun K => Real.exp (-(Cfg.mk 1 1 0 1 0 1 1).intr * 1) *
            meanRange (Cfg.mk 1 1 0 1 0 1 1).n_path (fun j =>
              max (1 * (bsmDirectSpecST (Cfg.mk 1 1 0 1 0 1 1) (fun _ _ => 0) (fun _ => 0) 1 1 j - K)) 0)) :=
  ⟨by norm_num,
    bsmMC_price_formula (Cfg.mk 1 1 0 1 0 1 1) (fun _ _ => 0) (fun _ => 0) [1] 1 1 1 (by norm_num)⟩

/-- Claim-side formula for C3, written from the spec's words: the
conditional forward spot is the correlation-decomposition component of the
direct log-normal variant divided by the discount factor, advanced by one
more independent draw with a martingale-corrected log-normal step. -/
def bsmCondSpecSpot (c : Cfg) (W : ℕ → ℕ → ℝ) (Z : ℕ → ℝ) (spot texp : ℝ) (j : ℕ) : ℝ :=
  let s := (1 / c.vov) * (sigmaT c texp W j - 1) - 0.5 * c.sigma * c.rho * texp * It c texp W j
  let fwd := spot * Real.exp (c.rho * c.sigma * s) / Real.exp (-c.intr * texp)
  let v := volEquiv c texp W j * Real.sqrt texp
  fwd * Real.exp (v * Z j - v ^ 2 / 2)

lemma bsmCondMC_spotEquiv_eq_spec (c : Cfg) (W : ℕ → ℕ → ℝ) (Z : ℕ → ℝ)
    (spot texp : ℝ) (j : ℕ) :
    ModelBsmCondMC.spotEquivWith c W Z spot texp (1 / c.vov) j
      = bsmCondSpecSpot c W Z spot texp j := by
  simp only [ModelBsmCondMC.spotEquivWith, bsmCondSpecSpot, volEquiv]
  ring_nf

/-- CLAIM C3: for `vov > 0`, the log-normal conditional simulator prices by
evaluating the closed-form model selected by `beta` at the per-path
equivalent volatility `sigma*sqrt((1-rho^2)*I_T)` and the equivalent spot
(correlation-decomposition forward advanced by a martingale-corrected
log-normal step), per strike, and averaging over paths. -/
theorem bsmCondMC_price_formula (cf : ModelKind → ℝ → ℝ → ℝ → ℝ → ℝ → ℝ → ℝ)
    (c : Cfg) (W : ℕ → ℕ → ℝ) (Z : ℕ → ℝ) (strikes : List ℝ) (spot texp cp : ℝ)
    (kind : ModelKind) (hvov : 0 < c.vov)
    (hk : base_modelKind c.beta = Except.ok kind) :
    ModelBsmCondMC.price cf c W Z strikes spot texp cp
      = Except.ok (strikes.map (fun K => meanRange c.n_path (fun j =>
          cf kind (volEquiv c texp W j) c.intr K (bsmCondSpecSpot c W Z spot texp j) texp cp))) := by
  unfold ModelBsmCondMC.price ModelBsmCondMC.priceWith
  rw [hk]
  simp only [Except.map]
  congr 1
  apply List.map_congr_left
  intro K _
  unfold meanRange
  congr 1
  apply Finset.sum_congr rfl
  intro j _
  simp only [bsmCondMC_spotEquiv_eq_spec]

/-- A probe pricer distinguishing the two closed-form families. -/
def cfProbe : ModelKind → ℝ → ℝ → ℝ → ℝ → ℝ → ℝ → ℝ :=
  fun kind _ _ _ _ _ _ =>
    match kind with
    | ModelKind.norm => 0
    | ModelKind.bsm => 1

/-- Witness for C3 at `beta = 1`, `vov = 1`. -/
theorem bsmCondMC_price_formula_witness :
    (0:ℝ) < (Cfg.mk 1 1 0 1 0 1 1).vov
    ∧ base_modelKind (Cfg.mk 1 1 0 1 0 1 1).beta = Except.ok ModelKind.bsm
    ∧ ModelBsmCondMC.price cfProbe (Cfg.mk 1 1 0 1 0 1 1) (fun _ _ => 0) (fun _ => 0) [1] 1 1 1
        = Except.ok ([1].map (fun K => meanRange (Cfg.mk 1 1 0 1 0 1 1).n_path (fun j =>
            cfProbe ModelKind.bsm (volEquiv (Cfg.mk 1 1 0 1 0 1 1) 1 (fun _ _ => 0) j)
              (Cfg.mk 1 1 0 1 0 1 1).intr K
              (bsmCondSpecSpot (Cfg.mk 1 1 0 1 0 1 1) (fun _ _ => 0) (fun _ => 0) 1 1 j) 1 1))) :=
  ⟨by norm_num, by norm_num [base_modelKind],
    bsmCondMC_price_formula cfProbe (Cfg.mk 1 1 0 1 0 1 1) (fun _ _ => 0) (fun _ => 0)
      [1] 1 1 1 ModelKind.bsm (by norm_num) (by norm_num [base_modelKind])⟩

/-- The C4 claim-side statement, following the spec's words: the
normal-conditional simulator prices via the closed-form NORMAL model at
the per-path equivalent volatility and at the additively built terminal
spot `spot + sigma_T*sqrt(I_T) + sigma_T*sqrt(texp)*Z`, averaging over
paths. -/
def normCondPricesViaNormModel (cf : ModelKind → ℝ → ℝ → ℝ → ℝ → ℝ → ℝ → ℝ)
    (c : Cfg) (W : ℕ → ℕ → ℝ) (Z : ℕ → ℝ) (strikes : List ℝ) (spot texp cp : ℝ) : Prop :=
  ModelNormCondMC.price cf c W Z strikes spot texp cp
    = Except.ok (strikes.map (fun K => meanRange c.n_path (fun j =>
        cf ModelKind.norm (volEquiv c texp W j) c.intr K
          (spot + sigmaT c texp W j * Real.sqrt (It c texp W j)
            + sigmaT c texp W j * Real.sqrt texp * Z j) texp cp)))

/-- CLAIM C4 counterexample: with `beta = 1` (the constructor default,
inherited by `ModelNormCondMC` through `ModelABC.__init__`), `base_model`
selects the LOG-NORMAL closed-form pricer, so the normal-conditional
simulator does NOT price via the closed-form normal model: the claim fails
at this concrete configuration. -/
theorem normCondMC_norm_model_counterexample :
    ¬ normCondPricesViaNormModel cfProbe (Cfg.mk 1 1 0 1 0 1 1)
        (fun _ _ => 0) (fun _ => 0) [1] 1 1 1 := by
  intro h
  unfold normCondPricesViaNormModel ModelNormCondMC.price at h
  norm_num [base_modelKind, Except.map, meanRange, cfProbe] at h

/-- CLAIM C4 amended: the normal-conditional simulator builds the terminal
spot additively from `sigma_T*sqrt(I_T)` and `sigma_T*sqrt(texp)*Z`, uses
the equivalent volatility `sigma*sqrt((1-rho^2)*I_T)`, and prices via the
closed-form model selected by `beta` — the normal model exactly when
`beta = 0` — averaged over paths. -/
theorem normCondMC_price_formula (cf : ModelKind → ℝ → ℝ → ℝ → ℝ → ℝ → ℝ → ℝ)
    (c : Cfg) (W : ℕ → ℕ → ℝ) (Z : ℕ → ℝ) (strikes : List ℝ) (spot texp cp : ℝ)
    (hb : c.beta = 0) :
    normCondPricesViaNormModel cf c W Z strikes spot texp cp := by
  unfold normCondPricesViaNormModel ModelNormCondMC.price ModelNormCondMC.ST
  rw [hb]
  simp [base_modelKind, Except.map]

/-- Witness for the amended C4 at `beta = 0`. -/
theorem normCondMC_price_formula_witness :
    (Cfg.mk 1 1 0 0 0 1 1).beta = 0
    ∧ normCondPricesViaNormModel cfProbe (Cfg.mk 1 1 0 0 0 1 1)
        (fun _ _ => 0) (fun _ => 0) [1] 1 1 1 :=
  ⟨rfl, normCondMC_price_formula cfProbe (Cfg.mk 1 1 0 0 0 1 1)
    (fun _ _ => 0) (fun _ => 0) [1] 1 1 1 rfl⟩

/-- CLAIM C8 counterexample: the normal-conditional variant's source
contains no division by `vov`, so at `vov = 0` its instrumented
computation does not signal a division by zero — refuting "every simulator
variant performs an unguarded division by zero". -/
theorem normCondMC_no_div_by_vov_counterexample :
    ModelNormCondMC.price_divCheck cfProbe (Cfg.mk 1 0 0 0 0 1 1)
      (fun _ _ => 0) (fun _ => 0) [1] 1 1 1 ≠ none := by
  simp [ModelNormCondMC.price_divCheck]

/-- CLAIM C8 amended: with `vov = 0`, the log-normal direct, normal direct
and log-normal conditional variants each perform an unguarded division by
`vov` in their correlation-shift term (instrumented semantics: `none`),
while the normal-conditional variant contains no division by `vov` and
completes. -/
theorem vov_zero_div_by_zero (cf : ModelKind → ℝ → ℝ → ℝ → ℝ → ℝ → ℝ → ℝ)
    (c : Cfg) (W : ℕ → ℕ → ℝ) (Z : ℕ → ℝ) (strikes : List ℝ) (spot texp cp : ℝ)
    (h : c.vov = 0) :
    ModelBsmMC.price_divCheck c W Z strikes spot texp cp = none
    ∧ ModelNormMC.price_divCheck c W Z strikes spot texp cp = none
    ∧ ModelBsmCondMC.price_divCheck cf c W Z strikes spot texp cp = none
    ∧ ModelNormCondMC.price_divCheck cf c W Z strikes spot texp cp
        = some (ModelNormCondMC.price cf c W Z strikes spot texp cp) := by
  refine ⟨?_, ?_, ?_, rfl⟩
  · simp [ModelBsmMC.price_divCheck, divChecked, h]
  · simp [ModelNormMC.price_divCheck, divChecked, h]
  · simp [ModelBsmCondMC.price_divCheck, divChecked, h]

/-- Witness for the amended C8 at a configuration with `vov = 0`. -/
theorem vov_zero_div_by_zero_witness :
    (Cfg.mk 1 0 0 1 0 1 1).vov = 0
    ∧ ModelBsmMC.price_divCheck (Cfg.mk 1 0 0 1 0 1 1)
        (fun _ _ => 0) (fun _ => 0) [1] 1 1 1 = none :=
  ⟨rfl, (vov_zero_div_by_zero cfProbe (Cfg.mk 1 0 0 1 0 1 1)
    (fun _ _ => 0) (fun _ => 0) [1] 1 1 1 rfl).1⟩

lemma meanRange_mono {n : ℕ} {f g : ℕ → ℝ} (h : ∀ j, f j ≤ g j) :
    meanRange n f ≤ meanRange n g := by
  unfold meanRange
  have hs : (∑ j in Finset.range n, f j) ≤ ∑ j in Finset.range n, g j :=
    Finset.sum_le_sum (fun j _ => h j)
  rcases eq_or_lt_of_le (Nat.cast_nonneg n : (0:ℝ) ≤ (n : ℝ)) with h0 | h0
  · rw [← h0]
    simp
  · exact (div_le_div_right h0).mpr hs

lemma payoff_call_mono {S K1 K2 : ℝ} (h : K1 ≤ K2) :
    max (1 * (S - K2)) 0 ≤ max (1 * (S - K1)) 0 := by
  apply max_le_max _ le_rfl
  linarith

lemma payoff_put_mono {S K1 K2 : ℝ} (h : K1 ≤ K2) :
    max ((-1) * (S - K1)) 0 ≤ max ((-1) * (S - K2)) 0 := by
  apply max_le_max _ le_rfl
  linarith

/-- CLAIM C9: for a fixed configuration and fixed realization of the
draws, the per-strike price of the direct simulators (of which the price
vector is the strike-wise map) is non-increasing in strike for calls
(`cp = 1`) and non-decreasing in strike for puts (`cp = -1`). -/
theorem price_monotone_in_strike (c : Cfg) (W : ℕ → ℕ → ℝ) (Z : ℕ → ℝ)
    (spot texp K1 K2 : ℝ) (h : K1 ≤ K2) :
    ModelBsmMC.priceK c W Z spot texp 1 K2 ≤ ModelBsmMC.priceK c W Z spot texp 1 K1
    ∧ ModelBsmMC.priceK c W Z spot texp (-1) K1 ≤ ModelBsmMC.priceK c W Z spot texp (-1) K2
    ∧ ModelNormMC.priceK c W Z spot texp 1 K2 ≤ ModelNormMC.priceK c W Z spot texp 1 K1
    ∧ ModelNormMC.priceK c W Z spot texp (-1) K1 ≤ ModelNormMC.priceK c W Z spot texp (-1) K2 := by
  refine ⟨?_, ?_, ?_, ?_⟩
  · unfold ModelBsmMC.priceK ModelBsmMC.priceKWith
    exact mul_le_mul_of_nonneg_left
      (meanRange_mono (fun j => payoff_call_mono h)) (Real.exp_pos _).le
  · unfold ModelBsmMC.priceK ModelBsmMC.priceKWith
    exact mul_le_mul_of_nonneg_left
      (meanRange_mono (fun j => payoff_put_mono h)) (Real.exp_pos _).le
  · unfold ModelNormMC.priceK ModelNormMC.priceKWith
    exact mul_le_mul_of_nonneg_left
      (meanRange_mono (fun j => payoff_call_mono h)) (Real.exp_pos _).le
  · unfold ModelNormMC.priceK ModelNormMC.priceKWith
    exact mul_le_mul_of_nonneg_left
      (meanRange_mono (fun j => payoff_put_mono h)) (Real.exp_pos _).le

/-- Witness for C9 at strikes `90 ≤ 110`. -/
theorem price_monotone_in_strike_witness :
    (90:ℝ) ≤ 110
    ∧ ModelBsmMC.priceK (Cfg.mk 1 1 0 1 0 1 1) (fun _ _ => 0) (fun _ => 0) 100 1 1 110
        ≤ ModelBsmMC.priceK (Cfg.mk 1 1 0 1 0 1 1) (fun _ _ => 0) (fun _ => 0) 100 1 1 90 :=
  ⟨by norm_num, (price_monotone_in_strike (Cfg.mk 1 1 0 1 0 1 1)
    (fun _ _ => 0) (fun _ => 0) 100 1 90 110 (by norm_num)).1⟩

end
